import Mathlib

/-!
Verification development for the M3SOSCF stochastic multi-agent SCF solver
(`pyscf/soscf/m3soscf.py`).  The definitions below are shallow embeddings of
the functions of that file; each definition's doc comment names the source
function and lines it embeds.  Matrices of floating point numbers are
modelled either over `ℝ` (for the trust formula, which involves `exp` and a
Frobenius norm) or over an explicit IEEE-style value type `FP` with rational
finite payloads (for the claims about non-finite oracle results), and the
orchestrator bookkeeping (trust arrays, acceptance loop, purge sets,
reassignment selection) is modelled generically over a linear ordered field
so that witnesses can be evaluated over `ℚ`.
-/

namespace M3

/-- IEEE-style floating point value: NaN, +inf, -inf, or a finite value with
rational payload.  Used to model the behaviour of `numpy` arithmetic on
non-finite data (claim C5); transcendental operations on finite payloads are
taken as parameters since they are not rational. -/
inductive FP where
  | nan : FP
  | inf : FP
  | ninf : FP
  | fin : ℚ → FP
deriving DecidableEq

/-- True exactly for `FP.nan`. -/
def FP.isNan : FP → Bool
  | .nan => true
  | _ => false

/-- True exactly for finite values. -/
def FP.isFinite : FP → Bool
  | .fin _ => true
  | _ => false

/-- IEEE negation on `FP`. -/
def fpNeg : FP → FP
  | .nan => .nan
  | .inf => .ninf
  | .ninf => .inf
  | .fin q => .fin (-q)

/-- IEEE addition on `FP`: NaN propagates, `inf + (-inf) = NaN`. -/
def fpAdd : FP → FP → FP
  | .nan, _ => .nan
  | _, .nan => .nan
  | .inf, .ninf => .nan
  | .inf, _ => .inf
  | .ninf, .inf => .nan
  | .ninf, _ => .ninf
  | .fin _, .inf => .inf
  | .fin _, .ninf => .ninf
  | .fin a, .fin b => .fin (a + b)

/-- IEEE subtraction on `FP`, via `a + (-b)`. -/
def fpSub (a b : FP) : FP := fpAdd a (fpNeg b)

/-- IEEE multiplication on `FP`: NaN propagates, `inf * 0 = NaN`,
infinities follow the sign rule. -/
def fpMul : FP → FP → FP
  | .nan, _ => .nan
  | _, .nan => .nan
  | .inf, .inf => .inf
  | .inf, .ninf => .ninf
  | .ninf, .inf => .ninf
  | .ninf, .ninf => .inf
  | .inf, .fin b => if 0 < b then .inf else if b < 0 then .ninf else .nan
  | .ninf, .fin b => if 0 < b then .ninf else if b < 0 then .inf else .nan
  | .fin a, .inf => if 0 < a then .inf else if a < 0 then .ninf else .nan
  | .fin a, .ninf => if 0 < a then .ninf else if a < 0 then .inf else .nan
  | .fin a, .fin b => .fin (a * b)

/-- IEEE division on `FP`: NaN propagates, finite / infinite = 0,
`0/0` and `inf/inf` are NaN, division of a nonzero finite value by zero
gives a signed infinity.  (Signed zeros are not tracked.) -/
def fpDiv : FP → FP → FP
  | .nan, _ => .nan
  | _, .nan => .nan
  | .inf, .inf => .nan
  | .inf, .ninf => .nan
  | .ninf, .inf => .nan
  | .ninf, .ninf => .nan
  | .inf, .fin b => if 0 ≤ b then .inf else .ninf
  | .ninf, .fin b => if 0 ≤ b then .ninf else .inf
  | .fin _, .inf => .fin 0
  | .fin _, .ninf => .fin 0
  | .fin a, .fin b =>
    if b = 0 then (if a = 0 then .nan else if 0 < a then .inf else .ninf)
    else .fin (a / b)

/-- Squaring on `FP` (numpy `x**2`). -/
def fpSq (a : FP) : FP := fpMul a a

/-- IEEE comparison `a <= b` on `FP`: any comparison with NaN is false. -/
def fpLe : FP → FP → Bool
  | .nan, _ => false
  | _, .nan => false
  | .ninf, _ => true
  | .inf, .inf => true
  | .inf, _ => false
  | .fin _, .inf => true
  | .fin _, .ninf => false
  | .fin a, .fin b => a ≤ b

/-- `numpy.e**(-x)` on `FP`: NaN propagates, `e**(-inf) = 0`,
`e**(+inf) = inf`; the transcendental finite branch is the parameter
`expNeg` (claims about the finite branch are settled in the `ℝ` model). -/
def fpExpNegAux (expNeg : ℚ → ℚ) : FP → FP
  | .nan => .nan
  | .inf => .fin 0
  | .ninf => .inf
  | .fin q => .fin (expNeg q)

/-- Embeds `Subconverger.auxilliaryXi` (m3soscf.py lines 777-791) on `FP`:
`if x <= 0: return 1` then `return numpy.e**(-x)`.  A NaN input fails the
comparison and reaches the exponential, producing NaN, exactly as in numpy. -/
def auxilliaryXiFP (expNeg : ℚ → ℚ) (x : FP) : FP :=
  if fpLe x (.fin 0) then .fin 1 else fpExpNegAux expNeg x

/-- Entrywise subtraction of `FP` matrices (`dm1 - dm0`). -/
def matSubFP {n : ℕ} (A B : Matrix (Fin n) (Fin n) FP) : Matrix (Fin n) (Fin n) FP :=
  fun i j => fpSub (A i j) (B i j)

/-- Whether some entry of an `FP` matrix is NaN. -/
def anyNanFP {n : ℕ} (A : Matrix (Fin n) (Fin n) FP) : Bool :=
  (List.finRange n).any fun i => (List.finRange n).any fun j => (A i j).isNan

/-- Whether some entry of an `FP` matrix is infinite. -/
def anyInfFP {n : ℕ} (A : Matrix (Fin n) (Fin n) FP) : Bool :=
  (List.finRange n).any fun i => (List.finRange n).any fun j =>
    decide (A i j = .inf) || decide (A i j = .ninf)

/-- Finite payload of an `FP` value (0 for non-finite values; only used
under guards that exclude them). -/
def fpPayload : FP → ℚ
  | .fin q => q
  | _ => 0

/-- `numpy.linalg.norm` (Frobenius norm) of an `FP` matrix: NaN if any entry
is NaN, infinite if any entry is infinite, else the square root of the sum
of squared entries.  The square root on rational payloads is the parameter
`sqrtQ` (it is irrational in general); only its nonnegativity is ever used. -/
def fpFrobNorm {n : ℕ} (sqrtQ : ℚ → ℚ) (A : Matrix (Fin n) (Fin n) FP) : FP :=
  if anyNanFP A then .nan
  else if anyInfFP A then .inf
  else .fin (sqrtQ (∑ i, ∑ j, (fpPayload (A i j))^2))

/-- The fixed trust scale constant `self.trust_scale = 10**-4`
(m3soscf.py line 666). -/
def trustScaleQ : ℚ := 1 / 10^4

/-- Embeds `Subconverger.getTrust` (m3soscf.py lines 749-774) on `FP`:
`e1 = energy_elec(dm1)`, `e0 = energy_elec(dm0)`, `denergy = e1 - e0`,
`l = numpy.linalg.norm(dm1-dm0) * trust_scale`, and the result is
`1.0 / (l + 1.0)**2 * auxilliaryXi(denergy)`.  The `converged` argument is
unused, as in the source (its use is commented out there).  The electronic
energy function is the external oracle `mf.energy_elec`. -/
def getTrustFP {n : ℕ} (expNeg sqrtQ : ℚ → ℚ) (energyElec : Matrix (Fin n) (Fin n) FP → FP)
    (dm0 dm1 : Matrix (Fin n) (Fin n) FP) (_converged : Bool) : FP :=
  let denergy := fpSub (energyElec dm1) (energyElec dm0)
  let l := fpMul (fpFrobNorm sqrtQ (matSubFP dm1 dm0)) (.fin trustScaleQ)
  fpMul (fpDiv (.fin 1) (fpSq (fpAdd l (.fin 1)))) (auxilliaryXiFP expNeg denergy)

/-- Embeds `Subconverger.getLocalSolAndTrust` together with
`Subconverger.solveForLocalSol` (m3soscf.py lines 670-726):
`old_dm = make_rdm1(mo_coeffs)`, `esol, converged = newton.kernel(...)`,
`new_dm = make_rdm1(esol)`, `trust = getTrust(old_dm, new_dm, converged)`,
and the returned solution is `esol` itself.  `make_rdm1`, `energy_elec` and
the one-Newton-step kernel are the external oracle operations of the
surrounding SCF engine. -/
def getLocalSolAndTrustFP {n : ℕ} (expNeg sqrtQ : ℚ → ℚ)
    (make_rdm1 : Matrix (Fin n) (Fin n) FP → Matrix (Fin n) (Fin n) FP)
    (energyElec : Matrix (Fin n) (Fin n) FP → FP)
    (newtonKernel : Matrix (Fin n) (Fin n) FP → Matrix (Fin n) (Fin n) FP × Bool)
    (moCoeffs : Matrix (Fin n) (Fin n) FP) : Matrix (Fin n) (Fin n) FP × FP :=
  let old_dm := make_rdm1 moCoeffs
  let p := newtonKernel moCoeffs
  let new_dm := make_rdm1 p.1
  (p.1, getTrustFP expNeg sqrtQ energyElec old_dm new_dm p.2)

/-- Concrete 1×1 base coefficient matrix (entry 0) used to exercise the
`FP` model of the local optimizer. -/
def baseC5 : Matrix (Fin 1) (Fin 1) FP := fun _ _ => FP.fin 0

/-- Concrete 1×1 all-+∞ matrix: a non-finite oracle result. -/
def infC5 : Matrix (Fin 1) (Fin 1) FP := fun _ _ => FP.inf

/-- Concrete oracle Newton step returning the non-finite matrix `infC5`
(not converged). -/
def newtonC5 : Matrix (Fin 1) (Fin 1) FP → Matrix (Fin 1) (Fin 1) FP × Bool :=
  fun _ => (infC5, false)

/-- Concrete oracle electronic energy: the (0,0) entry of the density. -/
def energyC5 : Matrix (Fin 1) (Fin 1) FP → FP := fun A => A 0 0

section Generic

variable {α : Type} [LinearOrderedField α] [FloorRing α] {γ : Type}

/-- Stable insertion of index `i` into an index list sorted by `key`
ascending: `i` is placed before the first index with a strictly larger key,
hence after all earlier indices with an equal key. -/
def insertSorted (key : ℕ → α) (i : ℕ) : List ℕ → List ℕ
  | [] => [i]
  | j :: t => if key i < key j then i :: j :: t else j :: insertSorted key i t

/-- Embeds `numpy.argsort` on a 1D array as a stable sort of the indices
`0..len-1` by value (an embedding choice for numpy's unspecified
tie-breaking; claims proved below do not depend on tie order except where
noted). -/
def argsort (l : List α) : List ℕ :=
  (List.range l.length).foldl (fun acc i => insertSorted (fun k => l.getD k 0) i acc) []

/-- Insertion into a strictly sorted list of naturals, dropping duplicates. -/
def insertUniq (i : ℕ) : List ℕ → List ℕ
  | [] => [i]
  | j :: t => if i < j then i :: j :: t else if i = j then j :: t else j :: insertUniq i t

/-- Embeds `numpy.unique` on an index list (followed by the redundant
`numpy.sort` of m3soscf.py line 347): the strictly ascending list of the
values that occur. -/
def dedupSort (l : List ℕ) : List ℕ := l.foldr insertUniq []

/-- Maximum of a list with default `d` for the empty list
(`numpy.max` / value at `numpy.argmax`). -/
def listMaxD (l : List α) (d : α) : α :=
  match l with
  | [] => d
  | h :: t => t.foldl max h

/-- Sum of a list (`numpy.einsum('i->', x)`). -/
def sumL (l : List α) : α := l.foldr (· + ·) 0

/-- Python `int()` applied to a field value: truncation toward zero. -/
def pyInt (x : α) : ℤ := if 0 ≤ x then ⌊x⌋ else ⌈x⌉

/-- Number of elements kept by the python slice `l[0:k]` for a possibly
negative `k` (numpy/python semantics: a negative `k` counts from the end). -/
def pyTakeCount (k : ℤ) (len : ℕ) : ℕ :=
  if 0 ≤ k then min k.toNat len else len - (-k).toNat

/-- The final slot-0 guard of the purge-set computation
(m3soscf.py lines 349-350): `purge_indices[0]` raises `IndexError` on an
empty purge set (modelled as `none`); otherwise, if the head is slot 0
while `current_trusts[readCursor, 0] > 0`, slot 0 is dropped. -/
def dropSlot0 (row : List α) (m : List ℕ) : Option (List ℕ) :=
  match m with
  | [] => none
  | hd :: t => some (if hd = 0 ∧ 0 < row.getD 0 0 then t else hd :: t)

/-- Embeds the purge-set computation of `M3SOSCF.converge`
(m3soscf.py lines 333-350), executed when `cycle > 0` and `threads > 1`:

* `sorted_indices = numpy.argsort(current_trusts[readCursor])`;
* `purge_indices = sorted_indices[0:min(int(len * purge_subconvergers), len)]`;
* `nonuniqueindices` = indices not returned by
  `numpy.unique(..., return_index=True)`, i.e. indices whose trust value
  already occurred at a smaller index;
* `zero_indices` = indices with trust `<= convergence_thresh`;
* the union is deduplicated and sorted (`numpy.unique` then `numpy.sort`),
  and the slot-0 guard `dropSlot0` is applied. -/
def purgeIndices (row : List α) (frac thresh : α) : Option (List ℕ) :=
  let s := argsort row
  let p0 := s.take (pyTakeCount (pyInt ((row.length : α) * frac)) s.length)
  let nonuniq := (List.range row.length).filter fun i =>
    decide (∃ k ∈ List.range i, row.getD k 0 = row.getD i 0)
  let zeros := (List.range row.length).filter fun i => decide (row.getD i 0 ≤ thresh)
  dropSlot0 row (dedupSort (p0 ++ nonuniq ++ zeros))

/-- State mutated by the per-cycle acceptance loop of `M3SOSCF.converge`
(m3soscf.py lines 371-410): the full `current_trusts` array (memory rows ×
threads), the `newMoCoeffs` buffer (initialised from
`mo_coeffs[readCursor]`), and `subconverger_indices`.  Coefficient matrices
are an abstract type `γ`. -/
structure AccState (α : Type) (γ : Type) where
  trusts : List (List α)
  newMo : List γ
  subIdx : List ℕ
deriving DecidableEq

/-- Write `v` at row `r`, column `c` of a nested list (no-op out of range,
as the orchestrator only writes in-range slots). -/
def setT (t : List (List α)) (r c : ℕ) (v : α) : List (List α) :=
  t.set r ((t.getD r []).set c v)

/-- Embeds m3soscf.py lines 376-378: `sorted_trusts = [0]` when there is a
single subconverger, else `numpy.argsort(current_trusts[readCursor, 1:]) + 1`. -/
def sortedTrusts (n : ℕ) (row : List α) : List ℕ :=
  if 1 < n then (argsort (row.drop 1)).map (· + 1) else [0]

/-- Embeds one iteration `j` of the acceptance loop of `M3SOSCF.converge`
(m3soscf.py lines 380-407) for a subconverger result `inp = (sol, trust,
rand)`, where `rand` is the draw `numpy.random.rand(1)` used by the
stochastic branch:

* `if trust == 0: continue`;
* `writeTrustIndex = 0 if j == 0 else sorted_trusts[j-1]`;
* `mc_threshold = 1 - current_trusts[readCursor, writeTrustIndex] + trust`;
* deterministic acceptance into slot `j` when
  `j == 0 and current_trusts[readCursor, j] > 0` or there is one thread;
* else stochastic acceptance into slot `writeTrustIndex` when
  `rand < mc_threshold`. -/
def acceptStep (n rc wc : ℕ) (st : List ℕ) (j : ℕ) (inp : γ × α × α)
    (s : AccState α γ) : AccState α γ :=
  if inp.2.1 = 0 then s
  else
    let wti := if 0 < j then st.getD (j - 1) 0 else 0
    let mc := 1 - (s.trusts.getD rc []).getD wti 0 + inp.2.1
    if (j = 0 ∧ 0 < (s.trusts.getD rc []).getD j 0) ∨ n = 1 then
      { trusts := setT s.trusts wc j inp.2.1
        newMo := s.newMo.set j inp.1
        subIdx := s.subIdx.set j j }
    else if inp.2.2 < mc then
      { trusts := setT s.trusts wc wti inp.2.1
        newMo := s.newMo.set wti inp.1
        subIdx := s.subIdx.set j wti }
    else s

/-- The acceptance loop `for j in range(len(self.subconvergers))`
(m3soscf.py lines 380-407), with the loop counter made explicit. -/
def acceptPhaseAux (n rc wc : ℕ) (st : List ℕ) (j : ℕ) :
    List (γ × α × α) → AccState α γ → AccState α γ
  | [], s => s
  | inp :: rest, s => acceptPhaseAux n rc wc st (j + 1) rest (acceptStep n rc wc st j inp s)

/-- The whole acceptance phase of one cycle: `sorted_trusts` is computed
once from the read row (m3soscf.py lines 376-378), then the loop runs with
`j = 0, 1, ...` over the subconverger results of this cycle. -/
def acceptPhase (n rc wc : ℕ) (inputs : List (γ × α × α)) (s0 : AccState α γ) : AccState α γ :=
  acceptPhaseAux n rc wc (sortedTrusts n (s0.trusts.getD rc [])) 0 inputs s0

/-- Write `0` at the given indices of a row: embeds the non-variational
safety reset `current_trusts[writeCursor, intersect] = 0.0`
(m3soscf.py line 438). -/
def zeroAt (row : List α) (idxs : List ℕ) : List α :=
  idxs.foldl (fun r i => r.set i 0) row

/-- The safety reset applied to the write row of the trust array. -/
def applyReset (wc : ℕ) (idxs : List ℕ) (s : AccState α γ) : AccState α γ :=
  { s with trusts := s.trusts.set wc (zeroAt (s.trusts.getD wc []) idxs) }

/-- All trust entries lie in the closed unit interval. -/
def trustsIn01 (t : List (List α)) : Prop :=
  ∀ r ∈ t, ∀ x ∈ r, 0 ≤ x ∧ x ≤ 1

/-- Clamping to `[0,1]`, as the specification's acceptance probability
`clamp(1 - targetSlotTrust + newTrust, 0, 1)`. -/
def clamp01 (x : α) : α := max 0 (min 1 x)

/-- Minimum of a list with default `d` for the empty list. -/
def listMinD (l : List α) (d : α) : α :=
  match l with
  | [] => d
  | h :: t => t.foldl min h

/-- The acceptance rule exactly as claim C3 words it (spec §4.3(d)): a
result is accepted iff (i) it is slot 0's first-ever acceptance — slot 0
has never held a positive trust, i.e. its committed trust is still 0 — or
(ii) a stochastic test succeeds with probability
`clamp(1 - targetSlotTrust + newTrust, 0, 1)` where `targetSlotTrust` is
the trust of the globally lowest-trust slot. -/
def specAcceptC3 (readRow : List α) (j : ℕ) (newTrust rand : α) : Prop :=
  (j = 0 ∧ readRow.getD 0 0 = 0) ∨ rand < clamp01 (1 - listMinD readRow 0 + newTrust)

/-- Embeds the normalised trust distribution of
`SubconvergerReassigmentManager.generateNewShifts` (m3soscf.py line 870):
`normed_trusts = trusts[trustmap] / numpy.einsum('i->', trusts)`.  When
every trust is zero numpy produces `0.0/0.0 = NaN` entries; every
comparison `x < NaN` is false, which makes the inverse CDF below fall
through exactly as the `ℚ` convention `0/0 = 0` does, so the embedding is
observationally faithful. -/
def normedTrusts (trusts : List α) : List α :=
  (argsort trusts).map fun i => trusts.getD i 0 / sumL trusts

/-- The loop of `inverseCDF` (m3soscf.py lines 872-877) with explicit
position counter: `if x < normed_trusts[i]: return i` else
`x -= normed_trusts[i]`; after the loop `return len(normed_trusts) - 1`. -/
def invCDFAux : List α → α → ℕ → ℕ
  | [], _, i => i - 1
  | h :: t, x, i => if x < h then i else invCDFAux t (x - h) (i + 1)

/-- `inverseCDF` of `generateNewShifts` (m3soscf.py lines 872-877). -/
def invCDF (l : List α) (x : α) : ℕ := invCDFAux l x 0

/-- Embeds one source-slot draw of `generateNewShifts`
(m3soscf.py lines 880-884): `selected = trustmap[inverseCDF(rand)]` with
`trustmap = numpy.argsort(trusts)`. -/
def selectSource (trusts : List α) (x : α) : ℕ :=
  (argsort trusts).getD (invCDF (normedTrusts trusts) x) 0

/-- Embeds the convergence bookkeeping of `M3SOSCF.converge` relevant to
termination (m3soscf.py lines 298-302, 312, 429, 445-460, 472): the finals
are initialised to `scf_conv = False`, `final_energy = 0.0`,
`final_mo_energy = None`, `final_mo_coeffs = None`; each cycle computes
`scf_tconv = 1 - current_trusts[writeCursor, highestTrustIndex]**4 <
convergence_thresh` (the trust at `numpy.argmax` is the row maximum) and on
success materialises the finals of that cycle and breaks; on fall-through
the initial sentinels are returned.  Each list entry carries one cycle's
write-row of trusts together with the finals (energy, MO energies, MO
coefficients) that cycle would materialise. -/
def convergeFinals {μ ν : Type} (thresh : α) :
    List (List α × α × μ × ν) → Bool × α × Option μ × Option ν
  | [] => (false, 0, none, none)
  | (row, e, me, c) :: rest =>
    if 1 - (listMaxD row 0)^4 < thresh then (true, e, some me, some c)
    else convergeFinals thresh rest

/-- Embeds `M3SOSCF.getDegreesOfFreedom` (m3soscf.py lines 139-143):
`int(0.5 * n * (n-1))`, which is exactly `n*(n-1)/2` since `n*(n-1)` is
even. -/
def getDegreesOfFreedom (nao : ℕ) : ℕ := nao * (nao - 1) / 2

/-- Number of strictly negative entries of a list. -/
def countNeg (l : List α) : ℕ := l.countP fun a => decide (a < 0)

/-- Embeds the point assembly of
`SubconvergerReassigmentManager.genSpherePoint` (m3soscf.py lines 936-944)
before normalisation: coordinate `capt_dim` receives `capt_sign`, the other
coordinates receive the entries of `sub_point = numpy.random.random(dim-1)`
shifted past the captured coordinate. -/
def rawPoint (dim captDim : ℕ) (captSign : α) (sub : List α) : List α :=
  (List.range dim).map fun i =>
    if i = captDim then captSign
    else if i < captDim then sub.getD i 0 else sub.getD (i - 1) 0

/-- Sum of squares of a list. -/
def sumSqL (l : List α) : α := (l.map (·^2)).foldr (· + ·) 0

end Generic

/-- Euclidean norm of a list of reals (`numpy.linalg.norm` on a vector). -/
noncomputable def euclNormL (l : List ℝ) : ℝ := Real.sqrt (sumSqL l)

/-- Embeds `SubconvergerReassigmentManager.genSpherePoint`
(m3soscf.py lines 919-948).  The random draws are explicit inputs:
`captDim = numpy.random.randint(0, dim)`, `signDraw = numpy.random.randint(0,
1)` (note the exclusive upper bound: this draw is always 0, so `capt_sign =
signDraw*2 - 1` is always −1), and `sub = numpy.random.random(dim-1)` with
entries in `[0,1)`.  The assembled point is divided by its norm. -/
noncomputable def genSpherePointR (dim captDim signDraw : ℕ) (sub : List ℝ) : List ℝ :=
  (rawPoint dim captDim ((signDraw : ℝ) * 2 - 1) sub).map
    (· / euclNormL (rawPoint dim captDim ((signDraw : ℝ) * 2 - 1) sub))

/-- The radius inverse CDF of
`SubconvergerReassigmentManager.genTrustRegionPoints`
(m3soscf.py lines 983-990): `numpy.log(1-x) / (- alpha * trust)`. -/
noncomputable def expInvCDF (alpha trust x : ℝ) : ℝ :=
  Real.log (1 - x) / (-(alpha * trust))

/-- One draw of `SubconvergerReassigmentManager.genTrustRegionPoints`
(m3soscf.py lines 969-998): `dpoints[i] = spoints[i] * radii[i]` with the
radius drawn through `expInvCDF` and the direction from `genSpherePoint`. -/
noncomputable def genTrustRegionPoint (alpha trust : ℝ) (dim captDim signDraw : ℕ)
    (sub : List ℝ) (x : ℝ) : List ℝ :=
  (genSpherePointR dim captDim signDraw sub).map (· * expInvCDF alpha trust x)

/-- Embeds `Subconverger.auxilliaryXi` (m3soscf.py lines 777-791) over `ℝ`:
1 for a nonpositive energy difference, else `exp(-x)`. -/
noncomputable def auxilliaryXi (x : ℝ) : ℝ := if x ≤ 0 then 1 else Real.exp (-x)

/-- Frobenius norm of a real matrix (`numpy.linalg.norm` of a 2D array). -/
noncomputable def frobNorm {n : ℕ} (A : Matrix (Fin n) (Fin n) ℝ) : ℝ :=
  Real.sqrt (∑ i, ∑ j, (A i j)^2)

/-- The fixed trust scale constant `self.trust_scale = 10**-4` over `ℝ`
(m3soscf.py line 666). -/
noncomputable def trustScaleR : ℝ := 1 / 10^4

/-- Embeds `Subconverger.getTrust` (m3soscf.py lines 749-774) over `ℝ`:
`denergy = energy_elec(dm1) - energy_elec(dm0)`,
`l = numpy.linalg.norm(dm1 - dm0) * trust_scale`, result
`1.0 / (l + 1.0)**2 * auxilliaryXi(denergy)`.  The electronic energy
function is the external oracle `mf.energy_elec`; the `converged` argument
is unused as in the source. -/
noncomputable def getTrust {n : ℕ} (energy : Matrix (Fin n) (Fin n) ℝ → ℝ)
    (dm0 dm1 : Matrix (Fin n) (Fin n) ℝ) (_converged : Bool) : ℝ :=
  1 / (frobNorm (dm1 - dm0) * trustScaleR + 1)^2 * auxilliaryXi (energy dm1 - energy dm0)

/-- Embeds the sampling-temperature update of
`SubconvergerReassigmentManager.generateNewShifts`
(m3soscf.py lines 851-853): `maxTrust = numpy.max(trusts.flatten())` over
the retained history rows (computed before the decay loop), and
`alpha = 1.0 / ((tsr[1] - tsr[0]) * (1 - maxTrust)**tsr[2] + tsr[0])` where
`tsr = trust_scale_range = (min, max, exponent)`. -/
noncomputable def reassignAlpha (tsr : ℝ × ℝ × ℝ) (trusts : List (List ℝ)) : ℝ :=
  1 / ((tsr.2.1 - tsr.1) * (1 - listMaxD trusts.flatten 0) ^ tsr.2.2 + tsr.1)

/-! ## Theorems -/

section MaxLemmas

variable {α : Type} [LinearOrderedField α]

lemma foldl_max_init_le (t : List α) : ∀ a : α, a ≤ t.foldl max a := by
  induction t with
  | nil => intro a; exact le_refl a
  | cons h t ih =>
    intro a
    exact le_trans (le_max_left a h) (ih (max a h))

lemma foldl_max_mem (t : List α) : ∀ a : α, t.foldl max a = a ∨ t.foldl max a ∈ t := by
  induction t with
  | nil => intro a; exact Or.inl rfl
  | cons h t ih =>
    intro a
    rcases ih (max a h) with heq | hmem
    · rcases max_choice a h with hc | hc
      · exact Or.inl (by rw [List.foldl_cons, heq, hc])
      · exact Or.inr (by rw [List.foldl_cons, heq, hc]; exact List.mem_cons_self h t)
    · exact Or.inr (List.mem_cons_of_mem h hmem)

lemma mem_le_foldl_max (t : List α) : ∀ (a x : α), x ∈ t → x ≤ t.foldl max a := by
  induction t with
  | nil => intro a x hx; exact absurd hx (List.not_mem_nil x)
  | cons h t ih =>
    intro a x hx
    rcases List.mem_cons.mp hx with rfl | hx
    · exact le_trans (le_max_right a x) (foldl_max_init_le t (max a x))
    · exact ih (max a h) x hx

lemma listMaxD_mem {l : List α} (h : l ≠ []) (d : α) : listMaxD l d ∈ l := by
  match l with
  | [] => exact absurd rfl h
  | x :: t =>
    rcases foldl_max_mem t x with heq | hmem
    · rw [listMaxD, heq]; exact List.mem_cons_self x t
    · exact List.mem_cons_of_mem x hmem

lemma le_listMaxD {l : List α} (d : α) : ∀ x ∈ l, x ≤ listMaxD l d := by
  match l with
  | [] => intro x hx; exact absurd hx (List.not_mem_nil x)
  | y :: t =>
    intro x hx
    rcases List.mem_cons.mp hx with rfl | hx
    · exact foldl_max_init_le t x
    · exact mem_le_foldl_max t y x hx

end MaxLemmas

/-- Claim C2: for every pair of density matrices (with all energies finite,
as they are in the real model), the trust computed by the local optimizer
`Subconverger.getTrust` equals `penalty / (1 + distance)^2`, where
`distance = ||dm1 - dm0|| * trustScale` (Frobenius norm scaled by the
trust-scale constant) and `penalty = 1` if `Energy(dm1) - Energy(dm0) ≤ 0`,
else `exp(-(Energy(dm1) - Energy(dm0)))`. -/
theorem claim_C2_trust_formula {n : ℕ} (energy : Matrix (Fin n) (Fin n) ℝ → ℝ)
    (dm0 dm1 : Matrix (Fin n) (Fin n) ℝ) (c : Bool) :
    getTrust energy dm0 dm1 c =
      (if energy dm1 - energy dm0 ≤ 0 then 1 else Real.exp (-(energy dm1 - energy dm0))) /
        (1 + frobNorm (dm1 - dm0) * trustScaleR)^2 := by
  unfold getTrust auxilliaryXi
  split_ifs <;> ring

/-- Claim C6 (amended): when no cycle's write-row passes the convergence
test `1 - maxTrust^4 < thresh`, `M3SOSCF.converge` falls through its loop
and returns normally with `converged = false` — but carrying the sentinel
initial values `final_energy = 0.0`, `final_mo_energy = None`,
`final_mo_coeffs = None`, not the best candidate found. -/
theorem claim_C6_exhausted_returns_sentinels {α : Type} [LinearOrderedField α] {μ ν : Type}
    (thresh : α) (cycles : List (List α × α × μ × ν))
    (h : ∀ c ∈ cycles, ¬ (1 - (listMaxD c.1 0)^4 < thresh)) :
    convergeFinals thresh cycles = (false, 0, none, none) := by
  induction cycles with
  | nil => rfl
  | cons c rest ih =>
    obtain ⟨row, e, me, co⟩ := c
    rw [convergeFinals, if_neg (h (row, e, me, co) (List.mem_cons_self _ _))]
    exact ih fun c hc => h c (List.mem_cons_of_mem _ hc)

/-- Witness for C6: a single non-converged cycle (max trust 1/2). -/
theorem claim_C6_exhausted_returns_sentinels_witness :
    (∀ c ∈ [([(1:ℚ)/2], (-5:ℚ), (7:ℕ), (9:ℕ))], ¬ (1 - (listMaxD c.1 0)^4 < (1:ℚ)/10^8)) ∧
    convergeFinals ((1:ℚ)/10^8) [([(1:ℚ)/2], (-5:ℚ), (7:ℕ), (9:ℕ))] = (false, 0, none, none) :=
  ⟨by norm_num [listMaxD],
    claim_C6_exhausted_returns_sentinels _ _ (by norm_num [listMaxD])⟩

/-- Counterexample to C6 as stated: with one exhausted cycle holding a
candidate of energy −5 and MO coefficients 9, the returned tuple is the
sentinel `(false, 0.0, None, None)` — the energy slot is `0.0` and the MO
energy/coefficient slots are `None`, not the best candidate found, refuting
"the returned tuple contains the best candidate found ... rather than empty
or sentinel values". -/
theorem claim_C6_cx :
    convergeFinals ((1:ℚ)/10^8) [([(1:ℚ)/2], (-5:ℚ), (7:ℕ), (9:ℕ))] = (false, 0, none, none) ∧
    (convergeFinals ((1:ℚ)/10^8) [([(1:ℚ)/2], (-5:ℚ), (7:ℕ), (9:ℕ))]).2.2.2 ≠ some 9 := by
  norm_num [convergeFinals, listMaxD]
  exact fun h => Option.noConfusion h

/-- Claim C7: on every reassignment call, `generateNewShifts` recomputes
the sampling temperature as
`alpha = 1 / ((max - min) * (1 - maxTrust)^exponent + min)` where
`(min, max, exponent)` is `trust_scale_range` and `maxTrust` is the maximum
trust value over the retained history rows passed in (`numpy.max` of the
flattened array: an element of the flattened history that bounds every
other element). -/
theorem claim_C7_reassign_alpha (tsr : ℝ × ℝ × ℝ) (trusts : List (List ℝ))
    (h : trusts.flatten ≠ []) :
    (listMaxD trusts.flatten 0 ∈ trusts.flatten ∧
      ∀ x ∈ trusts.flatten, x ≤ listMaxD trusts.flatten 0) ∧
    reassignAlpha tsr trusts =
      1 / ((tsr.2.1 - tsr.1) * (1 - listMaxD trusts.flatten 0) ^ tsr.2.2 + tsr.1) :=
  ⟨⟨listMaxD_mem h 0, le_listMaxD 0⟩, rfl⟩

/-- Witness for C7: one retained history row `[0, 1/2]` and schedule
`(1, 2, 3)`. -/
theorem claim_C7_reassign_alpha_witness :
    (([[(0:ℝ), 1/2]] : List (List ℝ)).flatten ≠ []) ∧
    ((listMaxD ([[(0:ℝ), 1/2]] : List (List ℝ)).flatten 0 ∈
        ([[(0:ℝ), 1/2]] : List (List ℝ)).flatten ∧
      ∀ x ∈ ([[(0:ℝ), 1/2]] : List (List ℝ)).flatten,
        x ≤ listMaxD ([[(0:ℝ), 1/2]] : List (List ℝ)).flatten 0) ∧
    reassignAlpha ((1:ℝ), 2, 3) [[(0:ℝ), 1/2]] =
      1 / (((2:ℝ) - 1) * (1 - listMaxD ([[(0:ℝ), 1/2]] : List (List ℝ)).flatten 0) ^ (3:ℝ) + 1)) :=
  ⟨by simp, claim_C7_reassign_alpha ((1:ℝ), 2, 3) [[(0:ℝ), 1/2]] (by simp)⟩

section PurgeLemmas

lemma mem_insertUniq {a i : ℕ} : ∀ {l : List ℕ}, a ∈ insertUniq i l ↔ a = i ∨ a ∈ l := by
  intro l
  induction l with
  | nil => simp [insertUniq]
  | cons j t ih =>
    rw [insertUniq]
    split_ifs with h1 h2
    · simp
    · subst h2
      simp only [List.mem_cons, ← or_assoc, or_self]
    · simp only [List.mem_cons, ih]
      tauto

lemma insertUniq_sorted {i : ℕ} : ∀ {l : List ℕ},
    List.Sorted (· < ·) l → List.Sorted (· < ·) (insertUniq i l) := by
  intro l
  induction l with
  | nil => intro _; simp [insertUniq]
  | cons j t ih =>
    intro hs
    rw [List.sorted_cons] at hs
    rw [insertUniq]
    split_ifs with h1 h2
    · rw [List.sorted_cons]
      refine ⟨?_, List.sorted_cons.mpr hs⟩
      intro b hb
      rcases List.mem_cons.mp hb with rfl | hb
      · exact h1
      · exact lt_trans h1 (hs.1 b hb)
    · exact List.sorted_cons.mpr hs
    · rw [List.sorted_cons]
      refine ⟨?_, ih hs.2⟩
      intro b hb
      rcases mem_insertUniq.mp hb with rfl | hb
      · exact lt_of_le_of_ne (Nat.le_of_not_lt h1) (fun hji => h2 hji.symm)
      · exact hs.1 b hb

lemma dedupSort_sorted : ∀ (l : List ℕ), List.Sorted (· < ·) (dedupSort l) := by
  intro l
  induction l with
  | nil => simp [dedupSort]
  | cons a t ih => exact insertUniq_sorted ih

lemma dropSlot0_not_mem {α : Type} [LinearOrderedField α] {row : List α} {m l : List ℕ}
    (hs : List.Sorted (· < ·) m) (h : dropSlot0 row m = some l)
    (h0 : 0 < row.getD 0 0) : 0 ∉ l := by
  match m with
  | [] => exact absurd h (by simp [dropSlot0])
  | hd :: t =>
    rw [dropSlot0] at h
    rw [List.sorted_cons] at hs
    injection h with h
    subst h
    split_ifs with hifc
    · intro h0t
      exact absurd (hs.1 0 h0t) (by omega)
    · intro h0m
      rcases List.mem_cons.mp h0m with h0m | h0m
      · exact hifc ⟨h0m.symm, h0⟩
      · exact absurd (hs.1 0 h0m) (by omega)

end PurgeLemmas

/-- Claim C4: whenever the purge-set computation of `M3SOSCF.converge`
produces a purge set (it raises `IndexError` on an empty one, modelled as
`none`), slot 0 is not a member of it as long as its trust from the last
committed snapshot is strictly positive — for every purge fraction,
threshold and trust row, i.e. regardless of the bottom-fraction rule, the
duplicate-trust rule and the below-threshold rule. -/
theorem claim_C4_slot0_never_purged {α : Type} [LinearOrderedField α] [FloorRing α]
    (row : List α) (frac thresh : α) (l : List ℕ)
    (h : purgeIndices row frac thresh = some l) (h0 : 0 < row.getD 0 0) : 0 ∉ l := by
  unfold purgeIndices at h
  exact dropSlot0_not_mem (dedupSort_sorted _) h h0

/-- Witness for C4: two equal trusts `[1/2, 1/2]`, purge fraction 1/2,
threshold 10⁻⁸; the purge set is `[1]` and slot 0 is not in it. -/
theorem claim_C4_slot0_never_purged_witness :
    purgeIndices [(1:ℚ)/2, 1/2] (1/2) (1/10^8) = some [1] ∧
    (0:ℚ) < [(1:ℚ)/2, 1/2].getD 0 0 ∧ 0 ∉ [1] :=
  ⟨by norm_num [purgeIndices, argsort, insertSorted, dedupSort, insertUniq, pyInt, pyTakeCount,
      dropSlot0, List.filter, List.range_succ],
   by norm_num,
   claim_C4_slot0_never_purged [(1:ℚ)/2, 1/2] (1/2) (1/10^8) [1]
     (by norm_num [purgeIndices, argsort, insertSorted, dedupSort, insertUniq, pyInt, pyTakeCount,
        dropSlot0, List.filter, List.range_succ])
     (by norm_num)⟩

section SelectLemmas

variable {α : Type} [LinearOrderedField α]

lemma getD_eq_zero {l : List α} (hz : ∀ t ∈ l, t = 0) : ∀ i : ℕ, l.getD i 0 = 0 := by
  induction l with
  | nil => intro i; simp
  | cons h t ih =>
    intro i
    cases i with
    | zero => simpa using hz h (List.mem_cons_self h t)
    | succ n =>
      rw [List.getD_cons_succ]
      exact ih (fun x hx => hz x (List.mem_cons_of_mem h hx)) n

lemma insertSorted_of_no_lt {key : ℕ → α} (hk : ∀ a b : ℕ, ¬ key a < key b) (i : ℕ) :
    ∀ m : List ℕ, insertSorted key i m = m ++ [i] := by
  intro m
  induction m with
  | nil => rfl
  | cons j t ih => rw [insertSorted, if_neg (hk i j), ih]; rfl

lemma foldl_insertSorted_of_no_lt {key : ℕ → α} (hk : ∀ a b : ℕ, ¬ key a < key b) :
    ∀ (idxs : List ℕ) (acc : List ℕ),
      idxs.foldl (fun acc i => insertSorted key i acc) acc = acc ++ idxs := by
  intro idxs
  induction idxs with
  | nil => intro acc; simp
  | cons i t ih =>
    intro acc
    rw [List.foldl_cons, ih, insertSorted_of_no_lt hk, List.append_assoc]
    rfl

lemma argsort_all_zero {l : List α} (hz : ∀ t ∈ l, t = 0) :
    argsort l = List.range l.length := by
  unfold argsort
  rw [foldl_insertSorted_of_no_lt, List.nil_append]
  intro a b
  rw [getD_eq_zero hz a, getD_eq_zero hz b]
  exact lt_irrefl 0

lemma normedTrusts_all_zero {l : List α} (hz : ∀ t ∈ l, t = 0) :
    normedTrusts l = List.replicate l.length 0 := by
  unfold normedTrusts
  rw [argsort_all_zero hz]
  calc (List.range l.length).map (fun i => l.getD i 0 / sumL l)
      = (List.range l.length).map (fun _ => (0:α)) :=
        List.map_congr_left (fun x _ => by rw [getD_eq_zero hz x, zero_div])
    _ = List.replicate l.length 0 := by rw [List.map_const', List.length_range]

lemma invCDFAux_replicate_zero : ∀ (m : ℕ) (x : α) (i : ℕ), 0 ≤ x →
    invCDFAux (List.replicate m 0) x i = i + m - 1 := by
  intro m
  induction m with
  | zero => intro x i _; rfl
  | succ m ih =>
    intro x i hx
    rw [List.replicate_succ, invCDFAux, if_neg (not_lt.mpr hx), sub_zero]
    rw [ih x (i + 1) hx]
    omega

lemma selectSource_all_zero {l : List α} {x : α} (hne : l ≠ []) (hz : ∀ t ∈ l, t = 0)
    (hx : 0 ≤ x) : selectSource l x = l.length - 1 := by
  unfold selectSource invCDF
  rw [normedTrusts_all_zero hz, argsort_all_zero hz, invCDFAux_replicate_zero l.length x 0 hx]
  have hlen : 1 ≤ l.length := List.length_pos.mpr hne
  rw [List.getD_eq_getElem?_getD, List.getElem?_range (by omega), Option.getD_some]
  omega

end SelectLemmas

/-- Claim C8 (amended): when every retained trust value is zero (cold
start), the source-slot selection of `generateNewShifts` does not become a
uniform choice: `numpy` produces an all-NaN normalised distribution
(`0.0/0.0`), every comparison against NaN is false, the inverse CDF falls
through to its final `return len - 1`, and every draw therefore selects the
slot in the last position of the sorting permutation — under this
embedding's stable argsort, always slot `n-1` — independent of the random
draw. -/
theorem claim_C8_cold_start_constant {α : Type} [LinearOrderedField α]
    (trusts : List α) (x : α) (hne : trusts ≠ []) (hz : ∀ t ∈ trusts, t = 0) (hx : 0 ≤ x) :
    selectSource trusts x = trusts.length - 1 :=
  selectSource_all_zero hne hz hx

/-- Witness for C8: three all-zero slots, draw 1/2; slot 2 is selected. -/
theorem claim_C8_cold_start_constant_witness :
    ([(0:ℚ), 0, 0] ≠ []) ∧ (∀ t ∈ [(0:ℚ), 0, 0], t = 0) ∧ (0:ℚ) ≤ 1/2 ∧
    selectSource [(0:ℚ), 0, 0] (1/2) = [(0:ℚ), 0, 0].length - 1 :=
  ⟨by simp, by simp, by norm_num,
   claim_C8_cold_start_constant [(0:ℚ), 0, 0] (1/2) (by simp) (by simp) (by norm_num)⟩

/-- Counterexample to C8 as stated: the claim says that on an all-zero
trust pool each slot is selected with equal probability for every draw; in
particular every slot would be selectable by some admissible draw
`x ∈ [0,1)`.  With the all-zero pool `[0, 0]` no draw ever selects slot 0:
the selection is the constant `1`. -/
theorem claim_C8_cx :
    ¬ (∀ slot < 2, ∃ x : ℚ, 0 ≤ x ∧ x < 1 ∧ selectSource [(0:ℚ), 0] x = slot) := by
  intro h
  obtain ⟨x, hx0, _, hsel⟩ := h 0 (by norm_num)
  have hconst : selectSource [(0:ℚ), 0] x = 1 :=
    selectSource_all_zero (by simp) (by simp) hx0
  rw [hsel] at hconst
  exact Nat.zero_ne_one hconst

/-- Claim C5 (amended): the local optimizer never substitutes the base
coefficients for a non-finite oracle result: `getLocalSolAndTrust` always
returns the oracle's output coefficients.  When the oracle result drives
the new electronic energy to +∞ while the old energy is finite and the
density difference contains no NaN, the trust is exactly 0 (via
`e**(-inf) = 0.0`); the computation is a total function, so no exception
propagates.  (The orchestrator then skips zero-trust results, which is
where the effective no-op happens.) -/
theorem claim_C5_nonfinite_no_noop {n : ℕ} (expNeg sqrtQ : ℚ → ℚ)
    (make_rdm1 : Matrix (Fin n) (Fin n) FP → Matrix (Fin n) (Fin n) FP)
    (energyElec : Matrix (Fin n) (Fin n) FP → FP)
    (newtonKernel : Matrix (Fin n) (Fin n) FP → Matrix (Fin n) (Fin n) FP × Bool)
    (base : Matrix (Fin n) (Fin n) FP) (q0 : ℚ)
    (hsqrt : ∀ q : ℚ, 0 ≤ sqrtQ q)
    (hnew : energyElec (make_rdm1 (newtonKernel base).1) = FP.inf)
    (hold : energyElec (make_rdm1 base) = FP.fin q0)
    (hnan : anyNanFP (matSubFP (make_rdm1 (newtonKernel base).1) (make_rdm1 base)) = false) :
    (getLocalSolAndTrustFP expNeg sqrtQ make_rdm1 energyElec newtonKernel base).1 =
      (newtonKernel base).1 ∧
    (getLocalSolAndTrustFP expNeg sqrtQ make_rdm1 energyElec newtonKernel base).2 = FP.fin 0 := by
  refine ⟨rfl, ?_⟩
  show fpMul (fpDiv (FP.fin 1) (fpSq (fpAdd
      (fpMul (fpFrobNorm sqrtQ (matSubFP (make_rdm1 (newtonKernel base).1) (make_rdm1 base)))
        (FP.fin trustScaleQ)) (FP.fin 1))))
    (auxilliaryXiFP expNeg (fpSub (energyElec (make_rdm1 (newtonKernel base).1))
      (energyElec (make_rdm1 base)))) = FP.fin 0
  rw [hnew, hold]
  have hxi : auxilliaryXiFP expNeg (fpSub FP.inf (FP.fin q0)) = FP.fin 0 := rfl
  rw [hxi]
  simp only [fpFrobNorm, hnan, Bool.false_eq_true, if_false]
  cases hinf : anyInfFP (matSubFP (make_rdm1 (newtonKernel base).1) (make_rdm1 base)) with
  | true =>
    simp only [if_true]
    have h1 : fpMul FP.inf (FP.fin trustScaleQ) = FP.inf := by
      show (if 0 < trustScaleQ then FP.inf else if trustScaleQ < 0 then FP.ninf else FP.nan) =
        FP.inf
      rw [if_pos (by norm_num [trustScaleQ])]
    rw [h1]
    show FP.fin (0 * 0) = FP.fin 0
    norm_num
  | false =>
    simp only [Bool.false_eq_true, if_false]
    set s := sqrtQ (∑ i, ∑ j,
      (fpPayload (matSubFP (make_rdm1 (newtonKernel base).1) (make_rdm1 base) i j))^2) with hsdef
    have hs : 0 ≤ s := hsqrt _
    have h1 : fpMul (FP.fin s) (FP.fin trustScaleQ) = FP.fin (s * trustScaleQ) := rfl
    have h2 : fpAdd (FP.fin (s * trustScaleQ)) (FP.fin 1) = FP.fin (s * trustScaleQ + 1) := rfl
    have h3 : fpSq (FP.fin (s * trustScaleQ + 1)) =
        FP.fin ((s * trustScaleQ + 1) * (s * trustScaleQ + 1)) := rfl
    have hz : (s * trustScaleQ + 1) * (s * trustScaleQ + 1) ≠ 0 := by
      have hc : (0:ℚ) < trustScaleQ := by norm_num [trustScaleQ]
      have hpos : (0:ℚ) < s * trustScaleQ + 1 := by positivity
      positivity
    have h4 : fpDiv (FP.fin 1) (FP.fin ((s * trustScaleQ + 1) * (s * trustScaleQ + 1))) =
        FP.fin (1 / ((s * trustScaleQ + 1) * (s * trustScaleQ + 1))) := by
      show (if (s * trustScaleQ + 1) * (s * trustScaleQ + 1) = 0 then
          (if (1:ℚ) = 0 then FP.nan else if 0 < (1:ℚ) then FP.inf else FP.ninf)
        else FP.fin (1 / ((s * trustScaleQ + 1) * (s * trustScaleQ + 1)))) =
        FP.fin (1 / ((s * trustScaleQ + 1) * (s * trustScaleQ + 1)))
      rw [if_neg hz]
    rw [h1, h2, h3, h4]
    show FP.fin (1 / ((s * trustScaleQ + 1) * (s * trustScaleQ + 1)) * 0) = FP.fin 0
    norm_num

/-- Witness for C5 (amended): a 1×1 system with base coefficients 0, an
oracle Newton step returning the +∞ matrix, the identity density map and
the (0,0) entry as electronic energy; the optimizer returns the oracle's
+∞ matrix (not the base) with trust 0. -/
theorem claim_C5_nonfinite_no_noop_witness :
    ((∀ q : ℚ, 0 ≤ (fun _ => (0:ℚ)) q) ∧
      energyC5 (id (newtonC5 baseC5).1) = FP.inf ∧
      energyC5 (id baseC5) = FP.fin 0 ∧
      anyNanFP (matSubFP (id (newtonC5 baseC5).1) (id baseC5)) = false) ∧
    (getLocalSolAndTrustFP id (fun _ => 0) id energyC5 newtonC5 baseC5).1 =
      (newtonC5 baseC5).1 ∧
    (getLocalSolAndTrustFP id (fun _ => 0) id energyC5 newtonC5 baseC5).2 = FP.fin 0 :=
  ⟨⟨fun _ => le_refl 0, rfl, rfl, rfl⟩,
   claim_C5_nonfinite_no_noop id (fun _ => 0) id energyC5 newtonC5 baseC5 0
     (fun _ => le_refl 0) rfl rfl rfl⟩

/-- Counterexample to C5 as stated: with the oracle Newton step returning a
non-finite (+∞) coefficient matrix, the local optimizer does yield trust 0,
but it returns the oracle's +∞ matrix, not its input coefficients
unchanged: the "newCoeffs = baseCoeffs (no-op)" behaviour does not exist in
`getLocalSolAndTrust`, which always returns `esol`. -/
theorem claim_C5_cx :
    (getLocalSolAndTrustFP id (fun _ => 0) id energyC5 newtonC5 baseC5).2 = FP.fin 0 ∧
    (getLocalSolAndTrustFP id (fun _ => 0) id energyC5 newtonC5 baseC5).1 ≠ baseC5 ∧
    FP.isFinite
      ((getLocalSolAndTrustFP id (fun _ => 0) id energyC5 newtonC5 baseC5).1 0 0) = false := by
  refine ⟨?_, ?_, rfl⟩
  · show fpMul (fpDiv (FP.fin 1) (fpSq (fpAdd
        (fpMul (fpFrobNorm (fun _ => 0) (matSubFP (id (newtonC5 baseC5).1) (id baseC5)))
          (FP.fin trustScaleQ)) (FP.fin 1))))
      (auxilliaryXiFP id (fpSub (energyC5 (id (newtonC5 baseC5).1))
        (energyC5 (id baseC5)))) = FP.fin 0
    have hxi : auxilliaryXiFP id (fpSub (energyC5 (id (newtonC5 baseC5).1))
        (energyC5 (id baseC5))) = FP.fin 0 := rfl
    have hnorm : fpFrobNorm (fun _ => (0:ℚ))
        (matSubFP (id (newtonC5 baseC5).1) (id baseC5)) = FP.inf := rfl
    rw [hxi, hnorm]
    have h1 : fpMul FP.inf (FP.fin trustScaleQ) = FP.inf := by
      show (if 0 < trustScaleQ then FP.inf else if trustScaleQ < 0 then FP.ninf else FP.nan) =
        FP.inf
      rw [if_pos (by norm_num [trustScaleQ])]
    rw [h1]
    show FP.fin (0 * 0) = FP.fin 0
    norm_num
  · intro h
    have h2 : FP.inf = FP.fin 0 := congrFun (congrFun h 0) 0
    exact FP.noConfusion h2

section AcceptLemmas

variable {α : Type} [LinearOrderedField α] {γ : Type}

lemma lt_clamp01_iff {r x : α} (h0 : 0 ≤ r) (h1 : r < 1) : r < clamp01 x ↔ r < x := by
  unfold clamp01
  rcases le_total x 0 with hx | hx
  · rw [min_eq_right (le_trans hx zero_le_one), max_eq_left hx]
    constructor
    · intro h; exact absurd h (not_lt.mpr h0)
    · intro h; exact absurd h (not_lt.mpr (le_trans hx h0))
  · rcases le_total x 1 with hx1 | hx1
    · rw [min_eq_right hx1, max_eq_right hx]
    · rw [min_eq_left hx1, max_eq_right zero_le_one]
      exact ⟨fun _ => lt_of_lt_of_le h1 hx1, fun _ => h1⟩

end AcceptLemmas

/-- Claim C3 (amended): in the acceptance loop of `M3SOSCF.converge`, agent
`j`'s result is accepted — written into the target slot, which is slot 0
for `j = 0` and the `(j-1)`-th entry of the ascending trust ordering of
slots `1..n-1` for `j > 0` — exactly when its trust is nonzero and either
(i) `j = 0` and slot 0's committed trust is *strictly positive* (i.e. not
its first acceptance), or (ii) there is a single agent, or (iii) the
stochastic test `rand < clamp(1 - targetSlotTrust + newTrust, 0, 1)`
succeeds (the clamped form is equivalent to the source's unclamped
comparison because the draw lies in `[0,1)`). -/
theorem claim_C3_acceptance_rule {α : Type} [LinearOrderedField α] {γ : Type}
    (n rc wc : ℕ) (st : List ℕ) (j : ℕ) (inp : γ × α × α) (s : AccState α γ)
    (hj : j < n) (h0 : 0 ≤ inp.2.2) (h1 : inp.2.2 < 1) :
    acceptStep n rc wc st j inp s =
      if inp.2.1 ≠ 0 ∧
          ((j = 0 ∧ 0 < (s.trusts.getD rc []).getD 0 0) ∨ n = 1 ∨
            inp.2.2 < clamp01 (1 - (s.trusts.getD rc []).getD
              (if 0 < j then st.getD (j - 1) 0 else 0) 0 + inp.2.1))
      then { trusts := setT s.trusts wc (if 0 < j then st.getD (j - 1) 0 else 0) inp.2.1
             newMo := s.newMo.set (if 0 < j then st.getD (j - 1) 0 else 0) inp.1
             subIdx := s.subIdx.set j (if 0 < j then st.getD (j - 1) 0 else 0) }
      else s := by
  simp only [acceptStep]
  by_cases ht : inp.2.1 = 0
  · rw [if_pos ht, if_neg (fun hc => hc.1 ht)]
  · rw [if_neg ht]
    by_cases hdet : (j = 0 ∧ 0 < (s.trusts.getD rc []).getD j 0) ∨ n = 1
    · have hj0 : j = 0 := by
        rcases hdet with ⟨hj0, -⟩ | hn1
        · exact hj0
        · omega
      subst hj0
      rw [if_pos hdet, if_pos]
      · simp
      · exact ⟨ht, by
          rcases hdet with ⟨-, hpos⟩ | hn1
          · exact Or.inl ⟨rfl, hpos⟩
          · exact Or.inr (Or.inl hn1)⟩
    · rw [if_neg hdet]
      by_cases hmc : inp.2.2 <
          1 - (s.trusts.getD rc []).getD (if 0 < j then st.getD (j - 1) 0 else 0) 0 + inp.2.1
      · have hcond : inp.2.1 ≠ 0 ∧
            ((j = 0 ∧ 0 < (s.trusts.getD rc []).getD 0 0) ∨ n = 1 ∨
              inp.2.2 < clamp01 (1 - (s.trusts.getD rc []).getD
                (if 0 < j then st.getD (j - 1) 0 else 0) 0 + inp.2.1)) :=
          ⟨ht, Or.inr (Or.inr ((lt_clamp01_iff h0 h1).mpr hmc))⟩
        rw [if_pos hmc, if_pos hcond]
      · rw [if_neg hmc, if_neg]
        rintro ⟨-, ⟨hj0, hpos⟩ | hn1 | hcl⟩
        · exact hdet (Or.inl ⟨hj0, by rw [hj0]; exact hpos⟩)
        · exact hdet (Or.inr hn1)
        · exact hmc ((lt_clamp01_iff h0 h1).mp hcl)

/-- Witness for C3 (amended): a single agent (`n = 1`, `j = 0`) with trust
1 and draw 1/2 on a zero-trust pool; the characterization applies and the
acceptance condition holds through the single-agent disjunct. -/
theorem claim_C3_acceptance_rule_witness :
    0 < 1 ∧ (0:ℚ) ≤ 1/2 ∧ (1:ℚ)/2 < 1 ∧
    acceptStep 1 0 0 [0] 0 ((7:ℕ), (1:ℚ), 1/2) ⟨[[(0:ℚ)]], [0], [0]⟩ =
      (if (1:ℚ) ≠ 0 ∧
          ((0 = 0 ∧ 0 < ((⟨[[(0:ℚ)]], [0], [0]⟩ : AccState ℚ ℕ).trusts.getD 0 []).getD 0 0) ∨
            1 = 1 ∨
            (1:ℚ)/2 < clamp01 (1 - ((⟨[[(0:ℚ)]], [0], [0]⟩ : AccState ℚ ℕ).trusts.getD 0 []).getD
              (if 0 < 0 then [0].getD (0 - 1) 0 else 0) 0 + 1))
      then { trusts := setT (⟨[[(0:ℚ)]], [0], [0]⟩ : AccState ℚ ℕ).trusts 0
               (if 0 < 0 then [0].getD (0 - 1) 0 else 0) 1
             newMo := (⟨[[(0:ℚ)]], [0], [0]⟩ : AccState ℚ ℕ).newMo.set
               (if 0 < 0 then [0].getD (0 - 1) 0 else 0) 7
             subIdx := (⟨[[(0:ℚ)]], [0], [0]⟩ : AccState ℚ ℕ).subIdx.set 0
               (if 0 < 0 then [0].getD (0 - 1) 0 else 0) }
      else ⟨[[(0:ℚ)]], [0], [0]⟩) :=
  ⟨Nat.one_pos, by norm_num, by norm_num,
   claim_C3_acceptance_rule 1 0 0 [0] 0 ((7:ℕ), (1:ℚ), 1/2) ⟨[[(0:ℚ)]], [0], [0]⟩
     Nat.one_pos (by norm_num) (by norm_num)⟩

/-- Counterexample to C3 as stated: pool trusts `[9/10, 1/2]`, agent
`j = 0` returns trust 1/20 with draw 99/100.  The code accepts
deterministically (slot 0's committed trust 9/10 is positive), mutating the
state; but the claim's rule rejects: this is not slot 0's first-ever
acceptance, and the stochastic test against the globally lowest-trust slot
(trust 1/2) has `clamp(1 - 1/2 + 1/20, 0, 1) = 11/20 < 99/100`.  The
claimed "if and only if" is therefore false. -/
theorem claim_C3_cx :
    acceptStep 2 0 0 (sortedTrusts 2 [(9:ℚ)/10, 1/2]) 0 ((5:ℕ), 1/20, 99/100)
        ⟨[[(9:ℚ)/10, 1/2]], [0, 1], [0, 1]⟩ ≠ ⟨[[(9:ℚ)/10, 1/2]], [0, 1], [0, 1]⟩ ∧
    ¬ specAcceptC3 [(9:ℚ)/10, 1/2] 0 (1/20) (99/100) := by
  constructor
  · intro h
    have hstep : acceptStep 2 0 0 (sortedTrusts 2 [(9:ℚ)/10, 1/2]) 0 ((5:ℕ), 1/20, 99/100)
        ⟨[[(9:ℚ)/10, 1/2]], [0, 1], [0, 1]⟩ =
        { trusts := setT [[(9:ℚ)/10, 1/2]] 0 0 (1/20)
          newMo := [5, 1]
          subIdx := [0, 1] } := by
      simp only [acceptStep]
      rw [if_neg (by norm_num : ¬ ((1:ℚ)/20 = 0))]
      rw [if_pos]
      · simp [setT]
      · norm_num
    rw [hstep] at h
    have h2 := congrArg (fun t : AccState ℚ ℕ => (t.trusts.getD 0 []).getD 0 0) h
    simp [setT] at h2
    norm_num at h2
  · unfold specAcceptC3
    have hmin : listMinD [(9:ℚ)/10, 1/2] 0 = 1/2 := by
      show List.foldl min ((9:ℚ)/10) [1/2] = 1/2
      rw [List.foldl_cons, List.foldl_nil]
      norm_num [min_def]
    rw [hmin]
    push_neg
    refine ⟨fun _ => by norm_num, ?_⟩
    norm_num [clamp01, min_def, max_def]

section FrameLemmas

variable {α : Type} [LinearOrderedField α] {γ : Type}

lemma insertSorted_length (key : ℕ → α) (i : ℕ) :
    ∀ l : List ℕ, (insertSorted key i l).length = l.length + 1 := by
  intro l
  induction l with
  | nil => rfl
  | cons j t ih =>
    rw [insertSorted]
    split_ifs
    · rfl
    · rw [List.length_cons, ih, List.length_cons]

lemma foldl_insertSorted_length (key : ℕ → α) :
    ∀ (idxs acc : List ℕ),
      (idxs.foldl (fun a i => insertSorted key i a) acc).length = acc.length + idxs.length := by
  intro idxs
  induction idxs with
  | nil => intro acc; simp
  | cons i t ih =>
    intro acc
    rw [List.foldl_cons, ih, insertSorted_length]
    simp only [List.length_cons]
    omega

lemma argsort_length (l : List α) : (argsort l).length = l.length := by
  unfold argsort
  rw [foldl_insertSorted_length]
  simp

lemma sortedTrusts_mem_pos {n : ℕ} {row : List α} (hn : 1 < n) :
    ∀ k ∈ sortedTrusts n row, 1 ≤ k := by
  intro k hk
  unfold sortedTrusts at hk
  rw [if_pos hn] at hk
  obtain ⟨a, -, rfl⟩ := List.mem_map.mp hk
  omega

lemma sortedTrusts_length {n : ℕ} {row : List α} (hn : 1 < n) :
    (sortedTrusts n row).length = row.length - 1 := by
  unfold sortedTrusts
  rw [if_pos hn, List.length_map, argsort_length, List.length_drop]

lemma setT_trusts_frame (t : List (List α)) (r c : ℕ) (v : α) (hc : c ≠ 0) :
    ((setT t r c v).getD r [])[0]? = (t.getD r [])[0]? := by
  unfold setT
  rcases Nat.lt_or_ge r t.length with hlt | hge
  · have h1 : (t.set r ((t.getD r []).set c v)).getD r [] = (t.getD r []).set c v := by
      rw [List.getD_eq_getElem?_getD, List.getElem?_set_self (by simpa using hlt),
        Option.getD_some]
    rw [h1, List.getElem?_set_ne hc]
  · rw [List.set_eq_of_length_le hge]

lemma acceptStep_slot0_frame (n rc wc : ℕ) (st : List ℕ) (j : ℕ) (inp : γ × α × α)
    (s : AccState α γ) (hj : 1 ≤ j) (hst : ∀ k ∈ st, 1 ≤ k) (hlen : j - 1 < st.length) :
    (acceptStep n rc wc st j inp s).newMo[0]? = s.newMo[0]? ∧
    ((acceptStep n rc wc st j inp s).trusts.getD wc [])[0]? =
      (s.trusts.getD wc [])[0]? := by
  have hj0 : j ≠ 0 := by omega
  have hwti : st.getD (j - 1) 0 ≠ 0 := by
    have hm : st.getD (j - 1) 0 ∈ st := by
      rw [List.getD_eq_getElem st 0 hlen]
      exact List.getElem_mem hlen
    exact Nat.one_le_iff_ne_zero.mp (hst _ hm)
  simp only [acceptStep]
  rw [if_pos (show 0 < j from hj)]
  split_ifs
  · exact ⟨rfl, rfl⟩
  · exact ⟨List.getElem?_set_ne hj0, setT_trusts_frame s.trusts wc j inp.2.1 hj0⟩
  · exact ⟨List.getElem?_set_ne hwti, setT_trusts_frame s.trusts wc _ inp.2.1 hwti⟩
  · exact ⟨rfl, rfl⟩

lemma acceptPhaseAux_slot0_frame {n rc wc : ℕ} {st : List ℕ} (hst : ∀ k ∈ st, 1 ≤ k) :
    ∀ (inputs : List (γ × α × α)) (j : ℕ) (s : AccState α γ), 1 ≤ j →
      j + inputs.length ≤ st.length + 1 →
      (acceptPhaseAux n rc wc st j inputs s).newMo[0]? = s.newMo[0]? ∧
      ((acceptPhaseAux n rc wc st j inputs s).trusts.getD wc [])[0]? =
        (s.trusts.getD wc [])[0]? := by
  intro inputs
  induction inputs with
  | nil => intro j s _ _; exact ⟨rfl, rfl⟩
  | cons inp rest ih =>
    intro j s hj hb
    simp only [List.length_cons] at hb
    rw [acceptPhaseAux]
    have hstep := acceptStep_slot0_frame n rc wc st j inp s hj hst (by omega)
    have hrest := ih (j + 1) (acceptStep n rc wc st j inp s) (by omega) (by omega)
    exact ⟨hrest.1.trans hstep.1, hrest.2.trans hstep.2⟩

end FrameLemmas

/-- Claim C10: across the whole acceptance loop of a cycle, the agents with
index `j > 0` never write slot 0: after processing every agent, the slot-0
entry of the `newMoCoeffs` buffer and the slot-0 trust of the write row are
exactly what agent 0's own acceptance step left there.  (For `j > 0` the
write target is `sorted_trusts[j-1] ∈ {1, …, n-1}`, never 0.) -/
theorem claim_C10_slot0_frame {α : Type} [LinearOrderedField α] {γ : Type}
    (n rc wc : ℕ) (i0 : γ × α × α) (rest : List (γ × α × α)) (s0 : AccState α γ)
    (hrow : (s0.trusts.getD rc []).length = n) (hlen : (i0 :: rest).length = n) :
    (acceptPhase n rc wc (i0 :: rest) s0).newMo[0]? =
      (acceptStep n rc wc (sortedTrusts n (s0.trusts.getD rc [])) 0 i0 s0).newMo[0]? ∧
    ((acceptPhase n rc wc (i0 :: rest) s0).trusts.getD wc [])[0]? =
      ((acceptStep n rc wc (sortedTrusts n (s0.trusts.getD rc [])) 0 i0 s0).trusts.getD
        wc [])[0]? := by
  unfold acceptPhase
  rw [acceptPhaseAux]
  rcases rest with _ | ⟨i1, rest'⟩
  · exact ⟨rfl, rfl⟩
  · have hn : 1 < n := by
      simp only [List.length_cons] at hlen
      omega
    refine acceptPhaseAux_slot0_frame (sortedTrusts_mem_pos hn) (i1 :: rest') 1 _ le_rfl ?_
    rw [sortedTrusts_length hn, hrow]
    simp only [List.length_cons] at hlen ⊢
    omega

/-- Witness for C10: two agents over a zero-trust pool; the full phase
leaves slot 0 exactly as agent 0's step left it. -/
theorem claim_C10_slot0_frame_witness :
    (((⟨[[(0:ℚ), 0]], [5, 6], [0, 1]⟩ : AccState ℚ ℕ).trusts.getD 0 []).length = 2) ∧
    ([((7:ℕ), (1:ℚ), 1/2), ((8:ℕ), (1:ℚ), 1/2)].length = 2) ∧
    ((acceptPhase 2 0 0 [((7:ℕ), (1:ℚ), 1/2), ((8:ℕ), (1:ℚ), 1/2)]
        ⟨[[(0:ℚ), 0]], [5, 6], [0, 1]⟩).newMo[0]? =
      (acceptStep 2 0 0 (sortedTrusts 2 ((⟨[[(0:ℚ), 0]], [5, 6], [0, 1]⟩ :
          AccState ℚ ℕ).trusts.getD 0 [])) 0 ((7:ℕ), (1:ℚ), 1/2)
        ⟨[[(0:ℚ), 0]], [5, 6], [0, 1]⟩).newMo[0]? ∧
    ((acceptPhase 2 0 0 [((7:ℕ), (1:ℚ), 1/2), ((8:ℕ), (1:ℚ), 1/2)]
        ⟨[[(0:ℚ), 0]], [5, 6], [0, 1]⟩).trusts.getD 0 [])[0]? =
      ((acceptStep 2 0 0 (sortedTrusts 2 ((⟨[[(0:ℚ), 0]], [5, 6], [0, 1]⟩ :
          AccState ℚ ℕ).trusts.getD 0 [])) 0 ((7:ℕ), (1:ℚ), 1/2)
        ⟨[[(0:ℚ), 0]], [5, 6], [0, 1]⟩).trusts.getD 0 [])[0]?) :=
  ⟨rfl, rfl,
   claim_C10_slot0_frame 2 0 0 ((7:ℕ), (1:ℚ), 1/2) [((8:ℕ), (1:ℚ), 1/2)]
     ⟨[[(0:ℚ), 0]], [5, 6], [0, 1]⟩ rfl rfl⟩

section InvariantLemmas

variable {α : Type} [LinearOrderedField α] {γ : Type}

lemma mem_row_of_getD {t : List (List α)} {r : ℕ} {x : α} (hx : x ∈ t.getD r []) :
    ∃ row ∈ t, x ∈ row := by
  rcases Nat.lt_or_ge r t.length with hlt | hge
  · refine ⟨t.getD r [], ?_, hx⟩
    rw [List.getD_eq_getElem t [] hlt]
    exact List.getElem_mem hlt
  · rw [List.getD_eq_default t [] hge] at hx
    exact absurd hx (List.not_mem_nil x)

lemma trustsIn01_setT {t : List (List α)} (h : trustsIn01 t) {v : α} (hv0 : 0 ≤ v)
    (hv1 : v ≤ 1) (r c : ℕ) : trustsIn01 (setT t r c v) := by
  intro row hrow x hx
  unfold setT at hrow
  rcases List.mem_or_eq_of_mem_set hrow with hrow | rfl
  · exact h row hrow x hx
  · rcases List.mem_or_eq_of_mem_set hx with hx | rfl
    · obtain ⟨row', hrow', hxr⟩ := mem_row_of_getD hx
      exact h row' hrow' x hxr
    · exact ⟨hv0, hv1⟩

lemma trustsIn01_acceptStep {n rc wc : ℕ} {st : List ℕ} {j : ℕ} {inp : γ × α × α}
    {s : AccState α γ} (h : trustsIn01 s.trusts) (ht0 : 0 ≤ inp.2.1) (ht1 : inp.2.1 ≤ 1) :
    trustsIn01 (acceptStep n rc wc st j inp s).trusts := by
  simp only [acceptStep]
  split_ifs <;>
    first
      | exact h
      | exact trustsIn01_setT h ht0 ht1 _ _

lemma trustsIn01_acceptPhaseAux {n rc wc : ℕ} {st : List ℕ} :
    ∀ (inputs : List (γ × α × α)) (j : ℕ) (s : AccState α γ), trustsIn01 s.trusts →
      (∀ inp ∈ inputs, 0 ≤ inp.2.1 ∧ inp.2.1 ≤ 1) →
      trustsIn01 (acceptPhaseAux n rc wc st j inputs s).trusts := by
  intro inputs
  induction inputs with
  | nil => intro j s hs _; exact hs
  | cons inp rest ih =>
    intro j s hs hin
    rw [acceptPhaseAux]
    have hmem := hin inp (List.mem_cons_self inp rest)
    exact ih (j + 1) _ (trustsIn01_acceptStep hs hmem.1 hmem.2)
      (fun i hi => hin i (List.mem_cons_of_mem inp hi))

lemma zeroAt_row01 : ∀ (idxs : List ℕ) (row : List α),
    (∀ x ∈ row, 0 ≤ x ∧ x ≤ 1) → ∀ x ∈ zeroAt row idxs, 0 ≤ x ∧ x ≤ 1 := by
  intro idxs
  induction idxs with
  | nil => intro row h; exact h
  | cons i t ih =>
    intro row h
    rw [zeroAt, List.foldl_cons]
    refine ih (row.set i 0) ?_
    intro x hx
    rcases List.mem_or_eq_of_mem_set hx with hx | rfl
    · exact h x hx
    · exact ⟨le_refl 0, zero_le_one⟩

lemma trustsIn01_applyReset {wc : ℕ} {idxs : List ℕ} {s : AccState α γ}
    (h : trustsIn01 s.trusts) : trustsIn01 (applyReset wc idxs s).trusts := by
  intro row hrow x hx
  unfold applyReset at hrow
  rcases List.mem_or_eq_of_mem_set hrow with hrow | rfl
  · exact h row hrow x hx
  · refine zeroAt_row01 idxs (s.trusts.getD wc []) ?_ x hx
    intro y hy
    obtain ⟨row', hrow', hyr⟩ := mem_row_of_getD hy
    exact h row' hrow' y hyr

end InvariantLemmas

lemma auxilliaryXi_nonneg (x : ℝ) : 0 ≤ auxilliaryXi x := by
  unfold auxilliaryXi
  split_ifs
  · exact zero_le_one
  · exact le_of_lt (Real.exp_pos _)

lemma auxilliaryXi_le_one (x : ℝ) : auxilliaryXi x ≤ 1 := by
  unfold auxilliaryXi
  split_ifs with hx
  · exact le_refl 1
  · calc Real.exp (-x) ≤ Real.exp 0 := Real.exp_le_exp.mpr (by linarith [not_le.mp hx])
      _ = 1 := Real.exp_zero

lemma getTrust_nonneg {n : ℕ} (energy : Matrix (Fin n) (Fin n) ℝ → ℝ)
    (dm0 dm1 : Matrix (Fin n) (Fin n) ℝ) (c : Bool) : 0 ≤ getTrust energy dm0 dm1 c := by
  unfold getTrust
  have hl : 0 ≤ frobNorm (dm1 - dm0) * trustScaleR :=
    mul_nonneg (Real.sqrt_nonneg _) (by norm_num [trustScaleR])
  exact mul_nonneg (by positivity) (auxilliaryXi_nonneg _)

lemma getTrust_le_one {n : ℕ} (energy : Matrix (Fin n) (Fin n) ℝ → ℝ)
    (dm0 dm1 : Matrix (Fin n) (Fin n) ℝ) (c : Bool) : getTrust energy dm0 dm1 c ≤ 1 := by
  unfold getTrust
  have hl : 0 ≤ frobNorm (dm1 - dm0) * trustScaleR :=
    mul_nonneg (Real.sqrt_nonneg _) (by norm_num [trustScaleR])
  have hfac : 1 / (frobNorm (dm1 - dm0) * trustScaleR + 1)^2 ≤ 1 := by
    rw [div_le_one (by positivity)]
    nlinarith
  have hfac0 : 0 ≤ 1 / (frobNorm (dm1 - dm0) * trustScaleR + 1)^2 := by positivity
  calc 1 / (frobNorm (dm1 - dm0) * trustScaleR + 1)^2 *
        auxilliaryXi (energy dm1 - energy dm0)
      ≤ 1 / (frobNorm (dm1 - dm0) * trustScaleR + 1)^2 * 1 :=
        mul_le_mul_of_nonneg_left (auxilliaryXi_le_one _) hfac0
    _ = 1 / (frobNorm (dm1 - dm0) * trustScaleR + 1)^2 := mul_one _
    _ ≤ 1 := hfac

/-- Claim C1: every value written into the `current_trusts` array over a
cycle lies in `[0,1]`.  Starting from any trust array whose entries lie in
`[0,1]` (as the all-zero initial array does), running the whole acceptance
loop — in which every written value is a `Subconverger.getTrust` result,
whether through the deterministic slot-0 branch or the stochastic
acceptance — and then the non-variational safety reset (which writes
zeros), every entry of every row of the trust array is still in `[0,1]`. -/
theorem claim_C1_trust_in_unit_interval {γ : Type} (n rc wc : ℕ)
    (inputs : List (γ × ℝ × ℝ)) (s0 : AccState ℝ γ) (resetIdxs : List ℕ)
    (hs : trustsIn01 s0.trusts)
    (hin : ∀ inp ∈ inputs, ∃ (m : ℕ) (energy : Matrix (Fin m) (Fin m) ℝ → ℝ)
      (dm0 dm1 : Matrix (Fin m) (Fin m) ℝ) (c : Bool),
        inp.2.1 = getTrust energy dm0 dm1 c) :
    trustsIn01 (applyReset wc resetIdxs (acceptPhase n rc wc inputs s0)).trusts := by
  refine trustsIn01_applyReset ?_
  unfold acceptPhase
  refine trustsIn01_acceptPhaseAux inputs 0 s0 hs ?_
  intro inp hinp
  obtain ⟨m, energy, dm0, dm1, c, heq⟩ := hin inp hinp
  rw [heq]
  exact ⟨getTrust_nonneg energy dm0 dm1 c, getTrust_le_one energy dm0 dm1 c⟩

/-- Witness for C1: a one-agent pool with zero initial trust, one
subconverger result whose trust is a concrete `getTrust` value, and a
safety reset of slot 0. -/
theorem claim_C1_trust_in_unit_interval_witness :
    trustsIn01 (⟨[[(0:ℝ)]], [(5:ℕ)], [0]⟩ : AccState ℝ ℕ).trusts ∧
    (∀ inp ∈ [((7:ℕ), getTrust (fun _ : Matrix (Fin 1) (Fin 1) ℝ => (0:ℝ)) 0 0 true,
        (1:ℝ)/2)],
      ∃ (m : ℕ) (energy : Matrix (Fin m) (Fin m) ℝ → ℝ)
        (dm0 dm1 : Matrix (Fin m) (Fin m) ℝ) (c : Bool),
          inp.2.1 = getTrust energy dm0 dm1 c) ∧
    trustsIn01 (applyReset 0 [0] (acceptPhase 1 0 0
      [((7:ℕ), getTrust (fun _ : Matrix (Fin 1) (Fin 1) ℝ => (0:ℝ)) 0 0 true, (1:ℝ)/2)]
      ⟨[[(0:ℝ)]], [(5:ℕ)], [0]⟩)).trusts :=
  ⟨by
    intro r hr x hx
    simp only [List.mem_singleton] at hr
    subst hr
    simp only [List.mem_singleton] at hx
    subst hx
    norm_num,
   by
    intro inp hinp
    simp only [List.mem_singleton] at hinp
    subst hinp
    exact ⟨1, fun _ => 0, 0, 0, true, rfl⟩,
   claim_C1_trust_in_unit_interval 1 0 0
     [((7:ℕ), getTrust (fun _ : Matrix (Fin 1) (Fin 1) ℝ => (0:ℝ)) 0 0 true, (1:ℝ)/2)]
     ⟨[[(0:ℝ)]], [(5:ℕ)], [0]⟩ [0]
     (by
       intro r hr x hx
       simp only [List.mem_singleton] at hr
       subst hr
       simp only [List.mem_singleton] at hx
       subst hx
       norm_num)
     (by
       intro inp hinp
       simp only [List.mem_singleton] at hinp
       subst hinp
       exact ⟨1, fun _ => 0, 0, 0, true, rfl⟩)⟩

section SphereLemmas

variable {α : Type} [LinearOrderedField α]

lemma sumSqL_nil : sumSqL ([] : List α) = 0 := rfl

lemma sumSqL_cons (x : α) (l : List α) : sumSqL (x :: l) = x^2 + sumSqL l := rfl

lemma sumSqL_nonneg (l : List α) : 0 ≤ sumSqL l := by
  induction l with
  | nil => exact le_refl 0
  | cons h t ih =>
    rw [sumSqL_cons]
    exact add_nonneg (sq_nonneg h) ih

lemma sq_le_sumSqL {l : List α} {x : α} (hx : x ∈ l) : x^2 ≤ sumSqL l := by
  induction l with
  | nil => exact absurd hx (List.not_mem_nil x)
  | cons h t ih =>
    rw [sumSqL_cons]
    rcases List.mem_cons.mp hx with rfl | hx
    · exact le_add_of_nonneg_right (sumSqL_nonneg t)
    · exact le_add_of_nonneg_left (sq_nonneg h) |>.trans' (ih hx)

lemma sumSqL_map_div (l : List α) (c : α) : sumSqL (l.map (· / c)) = sumSqL l / c^2 := by
  induction l with
  | nil => rw [List.map_nil, sumSqL_nil, zero_div]
  | cons h t ih =>
    rw [List.map_cons, sumSqL_cons, sumSqL_cons, ih, div_pow, div_add_div_same]

lemma getD_nonneg {l : List α} (h : ∀ s ∈ l, 0 ≤ s) (i : ℕ) : 0 ≤ l.getD i 0 := by
  rcases Nat.lt_or_ge i l.length with hlt | hge
  · rw [List.getD_eq_getElem l 0 hlt]
    exact h _ (List.getElem_mem hlt)
  · rw [List.getD_eq_default l 0 hge]

lemma neg_one_mem_rawPoint {dim capt : ℕ} (hc : capt < dim) (sub : List α) :
    (-1 : α) ∈ rawPoint dim capt (-1) sub := by
  unfold rawPoint
  exact List.mem_map.mpr ⟨capt, List.mem_range.mpr hc, by simp⟩

lemma countNeg_rawPoint {dim capt : ℕ} {sub : List α} (hc : capt < dim)
    (hsub : ∀ s ∈ sub, 0 ≤ s) : countNeg (rawPoint dim capt (-1) sub) = 1 := by
  unfold countNeg rawPoint
  rw [List.countP_map]
  rw [List.countP_congr (q := fun i => decide (i = capt)) ?_]
  · induction dim with
    | zero => omega
    | succ m ih =>
      rw [List.range_succ, List.countP_append]
      by_cases hcm : capt = m
      · subst hcm
        rw [List.countP_eq_zero.mpr, Nat.zero_add]
        · simp
        · intro a ha
          simp only [decide_eq_true_eq]
          exact Nat.ne_of_lt (List.mem_range.mp ha)
      · rw [ih (by omega)]
        have : List.countP (fun i => decide (i = capt)) [m] = 0 := by
          simp [Ne.symm hcm, hcm]
        rw [this]
  · intro i _
    simp only [Function.comp_apply, decide_eq_true_eq]
    by_cases h : i = capt
    · subst h
      simp only [if_pos rfl]
      exact ⟨fun _ => trivial, fun _ => by norm_num⟩
    · have hnn : 0 ≤ (if i < capt then sub.getD i 0 else sub.getD (i - 1) 0) := by
        split_ifs
        · exact getD_nonneg hsub i
        · exact getD_nonneg hsub (i - 1)
      rw [if_neg h]
      constructor
      · intro hlt; exact absurd hlt (not_lt.mpr hnn)
      · intro heq; exact absurd heq h

end SphereLemmas

lemma countNeg_map_div {l : List ℝ} {c : ℝ} (hc : 0 < c) :
    countNeg (l.map (· / c)) = countNeg l := by
  unfold countNeg
  rw [List.countP_map]
  refine List.countP_congr ?_
  intro a _
  simp only [Function.comp_apply, decide_eq_true_eq]
  constructor
  · intro h
    by_contra hna
    exact absurd h (not_lt.mpr (div_nonneg (not_lt.mp hna) (le_of_lt hc)))
  · intro h
    exact div_neg_of_neg_of_pos h hc

lemma one_le_euclNormL_rawPoint {dim capt : ℕ} (hc : capt < dim) (sub : List ℝ) :
    1 ≤ euclNormL (rawPoint dim capt (-1) sub) := by
  unfold euclNormL
  have hmem := neg_one_mem_rawPoint (α := ℝ) hc sub
  have h1 : (1:ℝ) ≤ sumSqL (rawPoint dim capt (-1) sub) := by
    have := sq_le_sumSqL hmem
    norm_num at this
    exact this
  calc (1:ℝ) = Real.sqrt 1 := Real.sqrt_one.symm
    _ ≤ _ := Real.sqrt_le_sqrt h1

lemma euclNormL_normalize {p : List ℝ} (hp : 0 < euclNormL p) :
    euclNormL (p.map (· / euclNormL p)) = 1 := by
  unfold euclNormL at hp ⊢
  rw [sumSqL_map_div]
  have hS0 : 0 ≤ sumSqL p := sumSqL_nonneg p
  have hSsq : Real.sqrt (sumSqL p) ^ 2 = sumSqL p := Real.sq_sqrt hS0
  have hSne : sumSqL p ≠ 0 := by
    intro h
    rw [h, Real.sqrt_zero] at hp
    exact lt_irrefl 0 hp
  rw [hSsq, div_self hSne, Real.sqrt_one]

lemma expInvCDF_law {alpha trust x : ℝ} (hx1 : x < 1) (hrate : 0 < alpha * trust) :
    1 - Real.exp (-(alpha * trust) * expInvCDF alpha trust x) = x := by
  unfold expInvCDF
  have hne : alpha * trust ≠ 0 := ne_of_gt hrate
  have harg : -(alpha * trust) * (Real.log (1 - x) / (-(alpha * trust))) =
      Real.log (1 - x) := by
    field_simp
  rw [harg, Real.exp_log (by linarith)]
  ring

/-- Claim C9 (amended): each reassignment draw applies the perturbation
`direction * radius` in the rotation-generator space of dimension
`N(N-1)/2`; the direction has unit Euclidean norm, and the radius is the
inverse CDF of the exponential law with rate `alpha * trust` (its CDF
`1 - exp(-rate·r)` maps the radius back to the uniform draw).  The
direction is, however, *not* uniform on the hypersphere: the captured
coordinate's sign draw `numpy.random.randint(0, 1)` is constantly 0, so the
captured coordinate is always −1 before normalisation, the remaining
coordinates are drawn from `[0,1)`, and the direction always has exactly
one negative coordinate. -/
theorem claim_C9_perturbation_law (N captDim signDraw : ℕ) (sub : List ℝ)
    (x alpha trust : ℝ) (hc : captDim < getDegreesOfFreedom N) (hsd : signDraw < 1)
    (hsub : ∀ s ∈ sub, 0 ≤ s) (hx0 : 0 ≤ x) (hx1 : x < 1) (hrate : 0 < alpha * trust) :
    euclNormL (genSpherePointR (getDegreesOfFreedom N) captDim signDraw sub) = 1 ∧
    genTrustRegionPoint alpha trust (getDegreesOfFreedom N) captDim signDraw sub x =
      (genSpherePointR (getDegreesOfFreedom N) captDim signDraw sub).map
        (· * expInvCDF alpha trust x) ∧
    1 - Real.exp (-(alpha * trust) * expInvCDF alpha trust x) = x ∧
    countNeg (genSpherePointR (getDegreesOfFreedom N) captDim signDraw sub) = 1 := by
  have hsd0 : signDraw = 0 := by omega
  subst hsd0
  have hnorm : 0 < euclNormL (rawPoint (getDegreesOfFreedom N) captDim
      (((0:ℕ):ℝ) * 2 - 1) sub) := by
    rw [show ((0:ℕ):ℝ) * 2 - 1 = -1 by norm_num]
    exact lt_of_lt_of_le one_pos (one_le_euclNormL_rawPoint hc sub)
  refine ⟨?_, rfl, expInvCDF_law hx1 hrate, ?_⟩
  · unfold genSpherePointR
    exact euclNormL_normalize hnorm
  · unfold genSpherePointR
    rw [countNeg_map_div hnorm]
    rw [show ((0:ℕ):ℝ) * 2 - 1 = -1 by norm_num]
    exact countNeg_rawPoint hc hsub

/-- Witness for C9 (amended): three orbitals (generator dimension 3),
captured coordinate 0, sign draw 0, box draws `[0, 0]`, uniform draw 0,
`alpha = trust = 1`. -/
theorem claim_C9_perturbation_law_witness :
    (0 < getDegreesOfFreedom 3 ∧ (0:ℕ) < 1 ∧ (∀ s ∈ [(0:ℝ), 0], 0 ≤ s) ∧
      (0:ℝ) ≤ 0 ∧ (0:ℝ) < 1 ∧ (0:ℝ) < 1 * 1) ∧
    (euclNormL (genSpherePointR (getDegreesOfFreedom 3) 0 0 [(0:ℝ), 0]) = 1 ∧
    genTrustRegionPoint 1 1 (getDegreesOfFreedom 3) 0 0 [(0:ℝ), 0] 0 =
      (genSpherePointR (getDegreesOfFreedom 3) 0 0 [(0:ℝ), 0]).map
        (· * expInvCDF 1 1 0) ∧
    1 - Real.exp (-((1:ℝ) * 1) * expInvCDF 1 1 0) = 0 ∧
    countNeg (genSpherePointR (getDegreesOfFreedom 3) 0 0 [(0:ℝ), 0]) = 1) :=
  ⟨⟨by norm_num [getDegreesOfFreedom], Nat.one_pos, by simp, le_refl 0, zero_lt_one,
     by norm_num⟩,
   claim_C9_perturbation_law 3 0 0 [(0:ℝ), 0] 0 1 1
     (by norm_num [getDegreesOfFreedom]) Nat.one_pos (by simp) (le_refl 0) zero_lt_one
     (by norm_num)⟩

/-- Counterexample to C9 as stated (negation of its uniformity part): a
direction distributed uniformly on the unit hypersphere of the
rotation-generator space would put positive probability mass on — and hence
reach — directions with two or more negative coordinates (for `N = 3`
orbitals the generator space has dimension 3, where such directions form a
region of positive measure).  But no admissible draw of `genSpherePoint`
(`captDim < dim`, `signDraw ∈ [0,1)` i.e. 0, box coordinates in `[0,1)`)
ever produces more than one negative coordinate. -/
theorem claim_C9_cx :
    ¬ ∃ (captDim signDraw : ℕ) (sub : List ℝ),
        captDim < getDegreesOfFreedom 3 ∧ signDraw < 1 ∧
        sub.length = getDegreesOfFreedom 3 - 1 ∧ (∀ s ∈ sub, 0 ≤ s ∧ s < 1) ∧
        2 ≤ countNeg (genSpherePointR (getDegreesOfFreedom 3) captDim signDraw sub) := by
  rintro ⟨capt, sd, sub, hc, hsd, -, hsub, hcount⟩
  have hsd0 : sd = 0 := by omega
  subst hsd0
  have hnorm : 0 < euclNormL (rawPoint (getDegreesOfFreedom 3) capt
      (((0:ℕ):ℝ) * 2 - 1) sub) := by
    rw [show ((0:ℕ):ℝ) * 2 - 1 = -1 by norm_num]
    exact lt_of_lt_of_le one_pos (one_le_euclNormL_rawPoint hc sub)
  have h1 : countNeg (genSpherePointR (getDegreesOfFreedom 3) capt 0 sub) = 1 := by
    unfold genSpherePointR
    rw [countNeg_map_div hnorm]
    rw [show ((0:ℕ):ℝ) * 2 - 1 = -1 by norm_num]
    exact countNeg_rawPoint hc (fun s hs => (hsub s hs).1)
  omega

end M3
